import Mathlib

/-!
# Verification of the `embedded-text` layout engine (vinaychandra fork)

Shallow embedding of the repository's core components and proofs about the
frozen specification claims.

* `src/parser.rs` — the tokenizer (`Parser`, `Token`, `is_word_char`,
  `is_space_char`, `try_parse_escape_seq`, `Iterator::next`).
* `src/lib.rs` — `TextBox::new`, `StyledTextBox::fit_height` /
  `fit_height_limited`, `Drawable::draw`.
* `src/utils/rect_ext.rs` — `RectExt::size` / `into_well_formed`.
* `src/alignment/left.rs` — the left-aligned renderer's carriage-return test.

Rust machine integers are embedded as `Nat` / `Int` with explicit `% 2 ^ 32`
where a wrapping cast occurs.  Strings are embedded as `List Char` (the
`Chars` iterator of the Rust code *is* the remaining suffix of the text, so a
parser state is exactly a `List Char`).  A Rust panic is embedded as `none`.
-/

namespace EmbeddedText

/-- Type `Token` from `src/parser.rs` (lines 22-47).  `Word` holds the referenced
slice of the input as a `List Char`. -/
inductive Token where
  | newLine : Token
  | carriageReturn : Token
  | tab : Token
  | escape : Token
  | whitespace : Nat → Token
  | word : List Char → Token
  | brk : Option Char → Token
  | extraCharacter : Char → Token
  deriving DecidableEq, Repr

/-- Constant `SPEC_CHAR_NBSP` (`'\u{a0}'`) from `src/parser.rs`. -/
def SPEC_CHAR_NBSP : Char := '\u00A0'

/-- Constant `SPEC_CHAR_ZWSP` (`'\u{200b}'`) from `src/parser.rs`. -/
def SPEC_CHAR_ZWSP : Char := '\u200B'

/-- Constant `SPEC_CHAR_SHY` (`'\u{ad}'`) from `src/parser.rs`. -/
def SPEC_CHAR_SHY : Char := '\u00AD'

/-- Constant `SPEC_CHAR_ESCAPE` (`'\x1b'`) from `src/parser.rs`. -/
def SPEC_CHAR_ESCAPE : Char := '\x1b'

/-- Rust's `char::is_whitespace`: the Unicode `White_Space` property,
enumerated by code point. -/
def rust_is_whitespace (c : Char) : Bool :=
  let n := c.toNat
  n == 0x9 || n == 0xA || n == 0xB || n == 0xC || n == 0xD || n == 0x20 ||
  n == 0x85 || n == 0xA0 || n == 0x1680 ||
  n == 0x2000 || n == 0x2001 || n == 0x2002 || n == 0x2003 || n == 0x2004 ||
  n == 0x2005 || n == 0x2006 || n == 0x2007 || n == 0x2008 || n == 0x2009 ||
  n == 0x200A || n == 0x2028 || n == 0x2029 || n == 0x202F || n == 0x205F ||
  n == 0x3000

/-- Predicate `is_word_char` from `src/parser.rs` (lines 62-67): not whitespace (except
nbsp, which is a word character), and none of zwsp / shy / escape. -/
def is_word_char (c : Char) : Bool :=
  (!rust_is_whitespace c || c == SPEC_CHAR_NBSP) &&
    !(c == SPEC_CHAR_ZWSP || c == SPEC_CHAR_SHY || c == SPEC_CHAR_ESCAPE)

/-- Predicate `is_space_char` from `src/parser.rs` (lines 69-73): whitespace excluding
`\n`, `\r`, `\t` and nbsp, or the zero-width space. -/
def is_space_char (c : Char) : Bool :=
  rust_is_whitespace c &&
      !(c == '\n' || c == '\r' || c == '\t' || c == SPEC_CHAR_NBSP) ||
    c == SPEC_CHAR_ZWSP

/-- One step of `<Parser as Iterator>::next` from `src/parser.rs`
(lines 104-181), on the remaining character sequence.  Returns the produced
token and the new remaining sequence; `none` exactly on the `else` branch for
an exhausted iterator.

* word branch: the longest run of word characters starting at the head;
* `\n` / `\r` / `\t` / zwsp / shy: single-character control tokens;
* escape: `try_parse_escape_seq` (lines 75-80) looks one character ahead and
  recognizes only a second escape character, which is then consumed; otherwise
  the lookahead is discarded and the bare marker yields `Token::Escape`;
* otherwise (a space character): the run of space characters is consumed,
  counting `1` for the head plus one for each non-zwsp character of the run.
-/
def next : List Char → Option (Token × List Char)
  | [] => none
  | c :: rest =>
    if is_word_char c then
      some (Token.word (c :: rest.takeWhile is_word_char), rest.dropWhile is_word_char)
    else if c = '\n' then some (Token.newLine, rest)
    else if c = '\r' then some (Token.carriageReturn, rest)
    else if c = '\t' then some (Token.tab, rest)
    else if c = SPEC_CHAR_ZWSP then some (Token.brk none, rest)
    else if c = SPEC_CHAR_SHY then some (Token.brk (some '-'), rest)
    else if c = SPEC_CHAR_ESCAPE then
      match rest with
      | e :: rest2 =>
        if e = SPEC_CHAR_ESCAPE then some (Token.escape, rest2)
        else some (Token.escape, rest)
      | [] => some (Token.escape, rest)
    else
      some (Token.whitespace
              (1 + (rest.takeWhile is_space_char).countP (fun x => x != SPEC_CHAR_ZWSP)),
            rest.dropWhile is_space_char)

/-- Structure `Parser` from `src/parser.rs` (lines 52-55): the `Chars` iterator state is
the remaining suffix of the text. -/
structure Parser where
  inner : List Char
  deriving DecidableEq, Repr

/-- Constructor `Parser::parse` (lines 82-90): a fresh parser over the whole text. -/
def Parser.parse (text : List Char) : Parser := ⟨text⟩

/-- Method `Parser::is_empty` (lines 92-97). -/
def Parser.is_empty (p : Parser) : Bool := p.inner.isEmpty

/-- Step `<Parser as Iterator>::next`, on the `Parser` wrapper. -/
def Parser.next (p : Parser) : Option (Token × Parser) :=
  (EmbeddedText.next p.inner).map (fun ts => (ts.1, ⟨ts.2⟩))

theorem dropWhile_length_le (p : Char → Bool) :
    ∀ l : List Char, (l.dropWhile p).length ≤ l.length := by
  intro l
  induction l with
  | nil => simp
  | cons c rest ih =>
    by_cases h : p c
    · simpa [List.dropWhile, h] using Nat.le_succ_of_le ih
    · simp [List.dropWhile, h]

/-- Every produced token strictly consumes input. -/
theorem next_length_lt :
    ∀ s t s', next s = some (t, s') → s'.length < s.length := by
  intro s t s' h
  match s with
  | [] => simp [next] at h
  | c :: rest =>
    have hd1 := dropWhile_length_le is_word_char rest
    have hd2 := dropWhile_length_le is_space_char rest
    simp only [next] at h
    repeat' split at h
    all_goals simp only [Option.some.injEq, Prod.mk.injEq] at h
    all_goals obtain ⟨rfl, rfl⟩ := h
    all_goals simp only [List.length_cons] at *
    all_goals omega

/-- Function `next` succeeds exactly on nonempty remaining input. -/
theorem next_eq_none_iff (s : List Char) : next s = none ↔ s = [] := by
  cases s with
  | nil => simp [next]
  | cons c rest =>
    simp only [List.cons_ne_nil, iff_false]
    intro h
    simp only [next] at h
    repeat' split at h
    all_goals simp at h

/-- Collecting the token stream, with explicit fuel (the input length always
suffices, by `next_length_lt`). -/
def tokenizeAux : Nat → List Char → List Token
  | 0, _ => []
  | Nat.succ fuel, s =>
    match next s with
    | none => []
    | some (t, s') => t :: tokenizeAux fuel s'

/-- The full token stream of a text: `Parser::parse(text).collect()`. -/
def tokenize (s : List Char) : List Token := tokenizeAux s.length s

theorem tokenizeAux_congr :
    ∀ fuel1 fuel2 s, s.length ≤ fuel1 → s.length ≤ fuel2 →
      tokenizeAux fuel1 s = tokenizeAux fuel2 s := by
  intro fuel1
  induction fuel1 with
  | zero =>
    intro fuel2 s h1 _
    have : s = [] := List.eq_nil_of_length_eq_zero (Nat.le_zero.mp h1)
    subst this
    cases fuel2 <;> simp [tokenizeAux, next]
  | succ f1 ih =>
    intro fuel2 s h1 h2
    cases s with
    | nil => cases fuel2 <;> simp [tokenizeAux, next]
    | cons c rest =>
      cases fuel2 with
      | zero => exact absurd h2 (by simp)
      | succ f2 =>
        cases h : next (c :: rest) with
        | none => simp [tokenizeAux, h]
        | some ts =>
          obtain ⟨t, s'⟩ := ts
          have hlt := next_length_lt _ _ _ h
          simp only [tokenizeAux, h]
          rw [ih f2 s' (by omega) (by omega)]

/-- The defining equation of `tokenize`: one `next` step at a time. -/
theorem tokenize_eq (s : List Char) :
    tokenize s = match next s with
      | none => []
      | some (t, s') => t :: tokenize s' := by
  cases h : next s with
  | none =>
    have : s = [] := (next_eq_none_iff s).mp h
    subst this; rfl
  | some ts =>
    obtain ⟨t, s'⟩ := ts
    cases s with
    | nil => simp [next] at h
    | cons c rest =>
      have hlt := next_length_lt _ _ _ h
      show tokenizeAux (rest.length + 1) (c :: rest) = t :: tokenize s'
      simp only [tokenizeAux, h]
      unfold tokenize
      rw [tokenizeAux_congr rest.length s'.length s' (by simpa using Nat.lt_succ_iff.mp hlt) le_rfl]

/-- The collected tokens of a parser state. -/
def Parser.tokens (p : Parser) : List Token := tokenize p.inner

/-- The token stream is finite: never longer than the character count. -/
theorem tokenize_length_le (s : List Char) : (tokenize s).length ≤ s.length := by
  have : ∀ n s', s'.length ≤ n → (tokenize s').length ≤ s'.length := by
    intro n
    induction n with
    | zero =>
      intro s' h
      have : s' = [] := List.eq_nil_of_length_eq_zero (Nat.le_zero.mp h)
      subst this; simp [tokenize, tokenizeAux]
    | succ n ih =>
      intro s' h
      cases hn : next s' with
      | none =>
        rw [tokenize_eq, hn]; simp
      | some ts =>
        obtain ⟨t, s''⟩ := ts
        have hlt := next_length_lt _ _ _ hn
        rw [tokenize_eq, hn]
        have := ih s'' (by omega)
        simp only [List.length_cons]
        omega
  exact this s.length s le_rfl

example : tokenize "Hello, world!\n".toList =
    [Token.word "Hello,".toList, Token.whitespace 1, Token.word "world!".toList,
     Token.newLine] := by decide

example : tokenize "two\u200Bwords".toList =
    [Token.word "two".toList, Token.brk none, Token.word "words".toList] := by decide

example : tokenize "  \u200B ".toList = [Token.whitespace 3] := by decide

example : tokenize "foo\u00ADbar".toList =
    [Token.word "foo".toList, Token.brk (some '-'), Token.word "bar".toList] := by decide

example : tokenize "foo\x1bbar".toList =
    [Token.word "foo".toList, Token.escape, Token.word "bar".toList] := by decide

example : tokenize "foo\x1b\x1bbar".toList =
    [Token.word "foo".toList, Token.escape, Token.word "bar".toList] := by decide

example : tokenize " \u00A0word".toList =
    [Token.whitespace 1, Token.word ('\u00A0' :: "word".toList)] := by decide

/-! ## Round-trip rendering of the token stream (claim C1)

`renderToken` realizes the claim's reading of a token: `Word` contributes its
text, `Whitespace(count)` expands to `count` spaces, the control tokens
contribute their control character, and `Break` / `Escape` (the zwsp, shy and
escape markers) contribute nothing. -/

/-- The text contribution of one token, per the round-trip claim. -/
def renderToken : Token → List Char
  | Token.newLine => ['\n']
  | Token.carriageReturn => ['\r']
  | Token.tab => ['\t']
  | Token.escape => []
  | Token.whitespace n => List.replicate n ' '
  | Token.word w => w
  | Token.brk _ => []
  | Token.extraCharacter _ => []

/-- Concatenation of the contributions of a token sequence, in order. -/
def renderTokens : List Token → List Char
  | [] => []
  | t :: ts => renderToken t ++ renderTokens ts

/-- The three characters the tokenizer swallows: soft hyphen, zero-width
space and the escape marker. -/
def is_marker (c : Char) : Bool :=
  c == SPEC_CHAR_SHY || c == SPEC_CHAR_ZWSP || c == SPEC_CHAR_ESCAPE

/-- What the tokenizer actually preserves of a text: markers removed, and
every space-class character replaced by a plain space. -/
def normalize (s : List Char) : List Char :=
  (s.filter (fun c => !is_marker c)).map (fun c => if is_space_char c then ' ' else c)

theorem word_char_not_marker {c : Char} (h : is_word_char c = true) :
    is_marker c = false := by
  simp only [is_word_char, Bool.and_eq_true, Bool.not_eq_true'] at h
  have h2 := h.2
  simp only [is_marker]
  cases hz : c == SPEC_CHAR_ZWSP <;> cases hs : c == SPEC_CHAR_SHY <;>
    cases he : c == SPEC_CHAR_ESCAPE <;> simp_all

theorem word_char_not_space {c : Char} (h : is_word_char c = true) :
    is_space_char c = false := by
  simp only [is_word_char, Bool.and_eq_true, Bool.not_eq_true'] at h
  obtain ⟨h1, h2⟩ := h
  have hz : (c == SPEC_CHAR_ZWSP) = false := by
    cases hcz : c == SPEC_CHAR_ZWSP <;> simp_all
  simp only [is_space_char, hz, Bool.or_false]
  cases hrw : rust_is_whitespace c with
  | false => simp
  | true =>
    rw [hrw] at h1
    simp only [Bool.not_true, Bool.false_or] at h1
    simp [h1]

theorem space_char_not_marker {c : Char} (h : is_space_char c = true)
    (hz : c ≠ SPEC_CHAR_ZWSP) : is_marker c = false := by
  have hs : c ≠ SPEC_CHAR_SHY := by
    intro hcs
    rw [hcs] at h
    exact absurd h (by decide)
  have he : c ≠ SPEC_CHAR_ESCAPE := by
    intro hce
    rw [hce] at h
    exact absurd h (by decide)
  simp [is_marker, hs, hz, he]

theorem space_of_not_word {c : Char} (hw : is_word_char c = false)
    (hn : c ≠ '\n') (hr : c ≠ '\r') (ht : c ≠ '\t')
    (hz : c ≠ SPEC_CHAR_ZWSP) (hs : c ≠ SPEC_CHAR_SHY) (he : c ≠ SPEC_CHAR_ESCAPE) :
    is_space_char c = true := by
  have hz' : (c == SPEC_CHAR_ZWSP) = false := by simpa using hz
  have hs' : (c == SPEC_CHAR_SHY) = false := by simpa using hs
  have he' : (c == SPEC_CHAR_ESCAPE) = false := by simpa using he
  have hn' : (c == '\n') = false := by simpa using hn
  have hr' : (c == '\r') = false := by simpa using hr
  have ht' : (c == '\t') = false := by simpa using ht
  simp only [is_word_char, hz', hs', he', Bool.or_false, Bool.or_self,
    Bool.not_false, Bool.and_true] at hw
  simp only [Bool.or_eq_false_iff, Bool.not_eq_false'] at hw
  simp [is_space_char, hw.1, hw.2, hn', hr', ht', hz']

theorem normalize_cons_marker (c : Char) (h : is_marker c = true) (s : List Char) :
    normalize (c :: s) = normalize s := by
  simp [normalize, List.filter_cons, h]

theorem normalize_cons_plain (c : Char) (h : is_marker c = false) (s : List Char) :
    normalize (c :: s) = (if is_space_char c then ' ' else c) :: normalize s := by
  simp [normalize, List.filter_cons, h]

theorem mem_takeWhile_pred (p : Char → Bool) :
    ∀ (l : List Char) (x : Char), x ∈ l.takeWhile p → p x = true := by
  intro l
  induction l with
  | nil => simp
  | cons c rest ih =>
    intro x hx
    cases h : p c with
    | false =>
      rw [List.takeWhile_cons_of_neg (by simp [h])] at hx
      simp at hx
    | true =>
      rw [List.takeWhile_cons_of_pos h] at hx
      rcases List.mem_cons.mp hx with rfl | hx'
      · exact h
      · exact ih x hx'

theorem normalize_append_word (w r : List Char)
    (hw : ∀ x ∈ w, is_word_char x = true) :
    normalize (w ++ r) = w ++ normalize r := by
  induction w with
  | nil => simp
  | cons c w' ih =>
    have hc := hw c (by simp)
    rw [List.cons_append, normalize_cons_plain c (word_char_not_marker hc),
      word_char_not_space hc]
    simp only [if_false, Bool.false_eq_true]
    rw [ih (fun x hx => hw x (by simp [hx]))]
    rfl

theorem normalize_append_spaces (run r : List Char)
    (hrun : ∀ x ∈ run, is_space_char x = true) :
    normalize (run ++ r) =
      List.replicate (run.countP (fun x => x != SPEC_CHAR_ZWSP)) ' ' ++ normalize r := by
  induction run with
  | nil => simp
  | cons c run' ih =>
    have hc := hrun c (by simp)
    have ih' := ih (fun x hx => hrun x (by simp [hx]))
    by_cases hz : c = SPEC_CHAR_ZWSP
    · subst hz
      rw [List.cons_append, normalize_cons_marker SPEC_CHAR_ZWSP (by decide), ih']
      simp [List.countP_cons]
    · rw [List.cons_append, normalize_cons_plain c (space_char_not_marker hc hz), hc]
      simp only [if_true]
      rw [ih']
      have hcount : (c :: run').countP (fun x => x != SPEC_CHAR_ZWSP) =
          run'.countP (fun x => x != SPEC_CHAR_ZWSP) + 1 := by
        simp [List.countP_cons, hz]
      rw [hcount, List.replicate_succ]
      rfl

theorem takeWhile_append_run (p : Char → Bool) (w r : List Char)
    (hw : ∀ x ∈ w, p x = true) : (w ++ r).takeWhile p = w ++ r.takeWhile p := by
  induction w with
  | nil => simp
  | cons c w' ih =>
    rw [List.cons_append, List.takeWhile_cons_of_pos (hw c (by simp)),
      ih (fun x hx => hw x (by simp [hx])), List.cons_append]

theorem dropWhile_append_run (p : Char → Bool) (w r : List Char)
    (hw : ∀ x ∈ w, p x = true) : (w ++ r).dropWhile p = r.dropWhile p := by
  induction w with
  | nil => simp
  | cons c w' ih =>
    rw [List.cons_append, List.dropWhile_cons_of_pos (hw c (by simp)),
      ih (fun x hx => hw x (by simp [hx]))]

/-- One `next` step preserves the normalized text: the produced token's
contribution followed by the normalization of the new state equals the
normalization of the old state. -/
theorem next_renders (c : Char) (rest : List Char) :
    ∃ t s', next (c :: rest) = some (t, s') ∧
      renderToken t ++ normalize s' = normalize (c :: rest) := by
  by_cases hw : is_word_char c = true
  · refine ⟨Token.word (c :: rest.takeWhile is_word_char), rest.dropWhile is_word_char,
      by simp only [next]; rw [if_pos hw], ?_⟩
    have hall : ∀ x ∈ c :: rest.takeWhile is_word_char, is_word_char x = true := by
      intro x hx
      rcases List.mem_cons.mp hx with rfl | hx'
      · exact hw
      · exact mem_takeWhile_pred _ _ _ hx'
    have hrhs : normalize (c :: rest) =
        (c :: rest.takeWhile is_word_char) ++ normalize (rest.dropWhile is_word_char) := by
      conv_lhs =>
        rw [show c :: rest =
          (c :: rest.takeWhile is_word_char) ++ rest.dropWhile is_word_char from by
            rw [List.cons_append, List.takeWhile_append_dropWhile]]
      exact normalize_append_word _ _ hall
    rw [hrhs]
    rfl
  · by_cases hn : c = '\n'
    · subst hn
      refine ⟨Token.newLine, rest, by simp only [next]; rfl, ?_⟩
      rw [normalize_cons_plain '\n' (by decide), show is_space_char '\n' = false from by decide]
      rfl
    · by_cases hr : c = '\r'
      · subst hr
        refine ⟨Token.carriageReturn, rest, by simp only [next]; rfl, ?_⟩
        rw [normalize_cons_plain '\r' (by decide), show is_space_char '\r' = false from by decide]
        rfl
      · by_cases ht : c = '\t'
        · subst ht
          refine ⟨Token.tab, rest, by simp only [next]; rfl, ?_⟩
          rw [normalize_cons_plain '\t' (by decide), show is_space_char '\t' = false from by decide]
          rfl
        · by_cases hz : c = SPEC_CHAR_ZWSP
          · subst hz
            refine ⟨Token.brk none, rest, by simp only [next]; rfl, ?_⟩
            rw [normalize_cons_marker SPEC_CHAR_ZWSP (by decide)]
            rfl
          · by_cases hs : c = SPEC_CHAR_SHY
            · subst hs
              refine ⟨Token.brk (some '-'), rest, by simp only [next]; rfl, ?_⟩
              rw [normalize_cons_marker SPEC_CHAR_SHY (by decide)]
              rfl
            · by_cases he : c = SPEC_CHAR_ESCAPE
              · subst he
                match rest with
                | [] =>
                  refine ⟨Token.escape, [], by rfl, ?_⟩
                  rw [normalize_cons_marker SPEC_CHAR_ESCAPE (by decide)]
                  rfl
                | e :: rest2 =>
                  by_cases hee : e = SPEC_CHAR_ESCAPE
                  · subst hee
                    refine ⟨Token.escape, rest2, by rfl, ?_⟩
                    rw [normalize_cons_marker SPEC_CHAR_ESCAPE (by decide),
                      normalize_cons_marker SPEC_CHAR_ESCAPE (by decide)]
                    rfl
                  · refine ⟨Token.escape, e :: rest2, ?_, ?_⟩
                    · show (if e = SPEC_CHAR_ESCAPE then some (Token.escape, rest2)
                          else some (Token.escape, e :: rest2)) = some (Token.escape, e :: rest2)
                      rw [if_neg hee]
                    · rw [normalize_cons_marker SPEC_CHAR_ESCAPE (by decide)]
                      rfl
              · -- the whitespace branch: `c` is a space character other than zwsp
                have hsp := space_of_not_word (by simpa using hw) hn hr ht hz hs he
                have hall : ∀ x ∈ c :: rest.takeWhile is_space_char, is_space_char x = true := by
                  intro x hx
                  rcases List.mem_cons.mp hx with rfl | hx'
                  · exact hsp
                  · exact mem_takeWhile_pred _ _ _ hx'
                refine ⟨Token.whitespace
                    (1 + (rest.takeWhile is_space_char).countP (fun x => x != SPEC_CHAR_ZWSP)),
                  rest.dropWhile is_space_char, ?_, ?_⟩
                · simp only [next]
                  rw [if_neg hw, if_neg hn, if_neg hr, if_neg ht, if_neg hz, if_neg hs, if_neg he]
                · have hrhs : normalize (c :: rest) =
                      List.replicate
                        ((c :: rest.takeWhile is_space_char).countP (fun x => x != SPEC_CHAR_ZWSP)) ' '
                        ++ normalize (rest.dropWhile is_space_char) := by
                    conv_lhs =>
                      rw [show c :: rest =
                        (c :: rest.takeWhile is_space_char) ++ rest.dropWhile is_space_char from by
                          rw [List.cons_append, List.takeWhile_append_dropWhile]]
                    exact normalize_append_spaces _ _ hall
                  rw [hrhs, List.countP_cons]
                  simp only [renderToken]
                  have hzb : (c != SPEC_CHAR_ZWSP) = true := by simp [hz]
                  simp [hzb, Nat.add_comm]

/-- The token stream renders back to the normalized input text. -/
theorem renderTokens_tokenize : ∀ s : List Char, renderTokens (tokenize s) = normalize s := by
  have key : ∀ n s, s.length ≤ n → renderTokens (tokenize s) = normalize s := by
    intro n
    induction n with
    | zero =>
      intro s h
      have : s = [] := List.eq_nil_of_length_eq_zero (Nat.le_zero.mp h)
      subst this; rfl
    | succ n ih =>
      intro s h
      match s with
      | [] => rfl
      | c :: rest =>
        obtain ⟨t, s', hnext, hren⟩ := next_renders c rest
        have hlt := next_length_lt _ _ _ hnext
        rw [tokenize_eq, hnext]
        show renderToken t ++ renderTokens (tokenize s') = normalize (c :: rest)
        rw [ih s' (by simp only [List.length_cons] at h hlt; omega), hren]
  intro s
  exact key s.length s le_rfl

/-! ## Claim theorems for the tokenizer -/

/-- C1, counterexample.  The claim as stated says the rendered token stream
reconstructs the original input with only the soft-hyphen / zero-width-space /
escape-marker characters removed.  At the one-character input `"\x0b"`
(vertical tab, a space-class character), the tokenizer produces
`Whitespace(1)`, which the claim expands to one ASCII space, while the input
with markers removed is still `"\x0b"`: the reconstruction differs from the
original. -/
theorem c1_roundtrip_counterexample :
    tokenize ['\x0b'] = [Token.whitespace 1] ∧
    renderTokens (tokenize ['\x0b']) = [' '] ∧
    List.filter (fun c => !is_marker c) ['\x0b'] = ['\x0b'] ∧
    renderTokens (tokenize ['\x0b']) ≠ ['\x0b'] := by decide

/-- C1, amended.  For every input, concatenating in token order the text of
every `Word` token, each `Whitespace(count)` expanded to `count` spaces, and
the control characters of `NewLine` / `CarriageReturn` / `Tab` reconstructs
the original input with the soft-hyphen, zero-width-space and escape-marker
characters removed *and with every space-class character replaced by an ASCII
space* (`normalize`). -/
theorem c1_roundtrip_amended (s : List Char) :
    renderTokens (tokenize s) = normalize s :=
  renderTokens_tokenize s

/-- C2, counterexample.  The claim says an escape marker followed by a
recognized sequence is returned as a *distinct* escape token *carrying the
parsed payload (a color-set or color-reset)*.  In `src/parser.rs` the only
recognized sequence is a second escape character (`try_parse_escape_seq`,
lines 75-80), and the token returned for it is the parameterless
`Token::Escape` — exactly the same token returned for the unrecognized input
`"\x1bA"`; no payload-carrying escape token exists in the `Token` type. -/
theorem c2_escape_counterexample :
    (Parser.parse ['\x1b', '\x1b']).next = some (Token.escape, Parser.mk []) ∧
    (Parser.parse ['\x1b', 'A']).next = some (Token.escape, Parser.mk ['A']) ∧
    Option.map Prod.fst (Parser.parse ['\x1b', '\x1b']).next =
      Option.map Prod.fst (Parser.parse ['\x1b', 'A']).next := by decide

/-- C2, amended.  When the escape marker is followed by the one recognized
sequence (a second escape marker), both characters are consumed and a single
parameterless `Escape` token is returned; when it is not recognized (any
other character, or end of input), the marker alone is consumed, the bare
`Escape` token is returned and scanning resumes at the character after the
marker; tokenization never fails on a nonempty input. -/
theorem c2_escape_amended :
    (∀ r : List Char,
      next (SPEC_CHAR_ESCAPE :: SPEC_CHAR_ESCAPE :: r) = some (Token.escape, r)) ∧
    (∀ (e : Char) (r : List Char), e ≠ SPEC_CHAR_ESCAPE →
      next (SPEC_CHAR_ESCAPE :: e :: r) = some (Token.escape, e :: r)) ∧
    next [SPEC_CHAR_ESCAPE] = some (Token.escape, []) ∧
    (∀ s : List Char, s ≠ [] → (next s).isSome = true) := by
  refine ⟨fun r => rfl, ?_, rfl, ?_⟩
  · intro e r hee
    show (if e = SPEC_CHAR_ESCAPE then some (Token.escape, r)
        else some (Token.escape, e :: r)) = some (Token.escape, e :: r)
    rw [if_neg hee]
  · intro s hs
    cases hnext : next s with
    | none => exact absurd ((next_eq_none_iff s).mp hnext) hs
    | some ts => rfl

/-- Witness for `c2_escape_amended` at concrete inputs. -/
theorem c2_escape_amended_witness :
    next [SPEC_CHAR_ESCAPE, SPEC_CHAR_ESCAPE, 'a'] = some (Token.escape, ['a']) ∧
    next [SPEC_CHAR_ESCAPE, 'A'] = some (Token.escape, ['A']) ∧
    (next ['x']).isSome = true :=
  ⟨c2_escape_amended.1 ['a'],
   c2_escape_amended.2.1 'A' [] (by decide),
   c2_escape_amended.2.2.2 ['x'] (by decide)⟩

/-- C3, counterexample.  The claim says *each* zero-width space becomes a
`Break(None)` token that splits the surrounding space runs.  A zero-width
space consumed *inside* a whitespace run produces no token at all and does
not split the run: the repository's own test input `"  \u{200b} "` tokenizes
to the single token `Whitespace(3)` with no `Break` (`parse_zwsp`,
`src/parser.rs` lines 221-231). -/
theorem c3_zwsp_counterexample :
    tokenize [' ', ' ', SPEC_CHAR_ZWSP, ' '] = [Token.whitespace 3] ∧
    Token.brk none ∉ tokenize [' ', ' ', SPEC_CHAR_ZWSP, ' '] := by decide

/-- C3, amended.  A zero-width space *at a token boundary* becomes a
`Break(None)` token and splits word runs; consecutive space-class characters
merge into one `Whitespace(count)` token whose count excludes the zero-width
spaces consumed inside the run (which are swallowed silently, with no
`Break` token). -/
theorem c3_zwsp_amended :
    (∀ s : List Char, tokenize (SPEC_CHAR_ZWSP :: s) = Token.brk none :: tokenize s) ∧
    (∀ (w s : List Char), w ≠ [] → (∀ x ∈ w, is_word_char x = true) →
      tokenize (w ++ SPEC_CHAR_ZWSP :: s) = Token.word w :: Token.brk none :: tokenize s) ∧
    (∀ (c : Char) (run s : List Char), is_space_char c = true → c ≠ SPEC_CHAR_ZWSP →
      (∀ x ∈ run, is_space_char x = true) →
      (s = [] ∨ ∃ d s2, s = d :: s2 ∧ is_space_char d = false) →
      tokenize (c :: (run ++ s)) =
        Token.whitespace (1 + run.countP (fun x => x != SPEC_CHAR_ZWSP)) :: tokenize s) := by
  refine ⟨?_, ?_, ?_⟩
  · intro s
    rw [tokenize_eq]
    rfl
  · intro w s hne hw
    cases w with
    | nil => exact absurd rfl hne
    | cons c w' =>
      have hc := hw c (by simp)
      have hw' : ∀ x ∈ w', is_word_char x = true := fun x hx => hw x (by simp [hx])
      have hnext : next ((c :: w') ++ SPEC_CHAR_ZWSP :: s) =
          some (Token.word (c :: w'), SPEC_CHAR_ZWSP :: s) := by
        rw [List.cons_append]
        simp only [next]
        rw [if_pos hc, takeWhile_append_run _ _ _ hw', dropWhile_append_run _ _ _ hw',
          List.takeWhile_cons_of_neg (by decide), List.dropWhile_cons_of_neg (by decide)]
        simp
      rw [tokenize_eq, hnext]
      rfl
  · intro c run s hc hz hrun hstop
    have hw : ¬ is_word_char c = true := fun h => absurd hc (by simp [word_char_not_space h])
    have hn : ¬ c = '\n' := fun h => by rw [h] at hc; exact absurd hc (by decide)
    have hr : ¬ c = '\r' := fun h => by rw [h] at hc; exact absurd hc (by decide)
    have ht : ¬ c = '\t' := fun h => by rw [h] at hc; exact absurd hc (by decide)
    have hs : ¬ c = SPEC_CHAR_SHY := fun h => by rw [h] at hc; exact absurd hc (by decide)
    have he : ¬ c = SPEC_CHAR_ESCAPE := fun h => by rw [h] at hc; exact absurd hc (by decide)
    have htw : s.takeWhile is_space_char = [] := by
      rcases hstop with rfl | ⟨d, s2, rfl, hd⟩
      · rfl
      · exact List.takeWhile_cons_of_neg (by simp [hd])
    have hdw : s.dropWhile is_space_char = s := by
      rcases hstop with rfl | ⟨d, s2, rfl, hd⟩
      · rfl
      · exact List.dropWhile_cons_of_neg (by simp [hd])
    have hnext : next (c :: (run ++ s)) =
        some (Token.whitespace (1 + run.countP (fun x => x != SPEC_CHAR_ZWSP)), s) := by
      simp only [next]
      rw [if_neg hw, if_neg hn, if_neg hr, if_neg ht, if_neg hz, if_neg hs, if_neg he,
        takeWhile_append_run _ _ _ hrun, dropWhile_append_run _ _ _ hrun, htw, hdw]
      simp
    rw [tokenize_eq, hnext]

/-- Witness for `c3_zwsp_amended` at concrete inputs. -/
theorem c3_zwsp_amended_witness :
    tokenize [SPEC_CHAR_ZWSP, 'a'] = [Token.brk none, Token.word ['a']] ∧
    tokenize ['a', SPEC_CHAR_ZWSP, 'b'] = [Token.word ['a'], Token.brk none, Token.word ['b']] ∧
    tokenize [' ', ' ', SPEC_CHAR_ZWSP, ' ', 'a'] = [Token.whitespace 3, Token.word ['a']] := by
  refine ⟨?_, ?_, ?_⟩
  · rw [c3_zwsp_amended.1 ['a']]
    decide
  · rw [show (['a', SPEC_CHAR_ZWSP, 'b'] : List Char) = ['a'] ++ SPEC_CHAR_ZWSP :: ['b'] from rfl,
      c3_zwsp_amended.2.1 ['a'] ['b'] (by decide) (by decide)]
    decide
  · rw [show ([' ', ' ', SPEC_CHAR_ZWSP, ' ', 'a'] : List Char) =
        ' ' :: ([' ', SPEC_CHAR_ZWSP, ' '] ++ ['a']) from rfl,
      c3_zwsp_amended.2.2 ' ' [' ', SPEC_CHAR_ZWSP, ' '] ['a'] (by decide) (by decide)
        (by decide) (Or.inr ⟨'a', [], rfl, by decide⟩)]
    decide

/-- C8, confirmed.  The token stream is a deterministic function of the text
alone: two independently constructed parsers over the same text yield the
same token sequence, namely `tokenize text`.  (The embedded parser state is
exactly the remaining character suffix, so no hidden state exists.) -/
theorem c8_tokenizer_deterministic (text : List Char) (p1 p2 : Parser)
    (h1 : p1 = Parser.parse text) (h2 : p2 = Parser.parse text) :
    p1.tokens = p2.tokens ∧ p1.tokens = tokenize text := by
  subst h1
  subst h2
  exact ⟨rfl, rfl⟩

/-- Witness for `c8_tokenizer_deterministic` at a concrete text. -/
theorem c8_tokenizer_deterministic_witness :
    (Parser.parse ['a', ' ', 'b']).tokens = (Parser.parse ['a', ' ', 'b']).tokens ∧
    (Parser.parse ['a', ' ', 'b']).tokens = tokenize ['a', ' ', 'b'] :=
  c8_tokenizer_deterministic ['a', ' ', 'b'] _ _ rfl rfl

/-- C10, confirmed.  Every `next` call that returns a token consumes at least
one character; `next` returns `none` exactly when `is_empty` holds; and the
token stream of a finite input is finite (no longer than the input). -/
theorem c10_progress_and_finiteness (p : Parser) :
    (∀ t p', p.next = some (t, p') → p'.inner.length < p.inner.length) ∧
    (p.next = none ↔ p.is_empty = true) ∧
    (tokenize p.inner).length ≤ p.inner.length := by
  refine ⟨?_, ?_, tokenize_length_le p.inner⟩
  · intro t p' h
    simp only [Parser.next, Option.map_eq_some'] at h
    obtain ⟨⟨t0, s0⟩, hns, heq⟩ := h
    obtain ⟨rfl, rfl⟩ : t0 = t ∧ (Parser.mk s0 : Parser) = p' := by
      simpa using heq
    exact next_length_lt _ _ _ hns
  · simp only [Parser.next, Parser.is_empty, Option.map_eq_none', List.isEmpty_iff]
    rw [next_eq_none_iff]
  
/-- Witness for `c10_progress_and_finiteness` at concrete parsers. -/
theorem c10_progress_and_finiteness_witness :
    (Parser.mk [] : Parser).next = none ∧
    (tokenize ['a', ' ']).length ≤ 2 ∧
    (Parser.mk [] : Parser).inner.length < (Parser.mk ['a'] : Parser).inner.length :=
  ⟨(c10_progress_and_finiteness (Parser.mk [])).2.1.mpr (by decide),
   (c10_progress_and_finiteness (Parser.mk ['a', ' '])).2.2,
   (c10_progress_and_finiteness (Parser.mk ['a'])).1 (Token.word ['a']) (Parser.mk [])
     (by decide)⟩

/-! ## Geometry: the external `Rectangle` (embedded-graphics 0.7) and
`src/utils/rect_ext.rs` / `src/lib.rs` -/

/-- Point of the external geometry library (embedded-graphics): signed
integer coordinates. -/
structure Point where
  x : Int
  y : Int
  deriving DecidableEq, Repr

/-- Size of the external geometry library: unsigned (`u32`) extents. -/
structure Size where
  width : Nat
  height : Nat
  deriving DecidableEq, Repr

/-- Axis-aligned rectangle of the external geometry library
(embedded-graphics 0.7): a top-left corner plus an unsigned size. -/
structure Rectangle where
  top_left : Point
  size : Size
  deriving DecidableEq, Repr

/-- Method `Rectangle::bottom_right` of embedded-graphics 0.7: the inclusive
bottom-right corner, `none` for a zero-sized rectangle (this is why
`rect_ext.rs` calls `.unwrap()` on it). -/
def Rectangle.bottom_right (r : Rectangle) : Option Point :=
  if 0 < r.size.width ∧ 0 < r.size.height then
    some ⟨r.top_left.x + (r.size.width : Int) - 1, r.top_left.y + (r.size.height : Int) - 1⟩
  else none

/-- Constructor `Rectangle::with_corners` of embedded-graphics 0.7: normalizes the two
corners (componentwise min/max) and stores the inclusive size, as required by
the `test_well_formed` test of `src/utils/rect_ext.rs`. -/
def Rectangle.with_corners (c1 c2 : Point) : Rectangle :=
  { top_left := ⟨min c1.x c2.x, min c1.y c2.y⟩,
    size := ⟨(max c1.x c2.x - min c1.x c2.x + 1).toNat,
             (max c1.y c2.y - min c1.y c2.y + 1).toNat⟩ }

/-- Method `Rectangle::translate`: shifts the corner, keeps the size. -/
def Rectangle.translate (r : Rectangle) (d : Point) : Rectangle :=
  { r with top_left := ⟨r.top_left.x + d.x, r.top_left.y + d.y⟩ }

/-- Method `RectExt::into_well_formed` from `src/utils/rect_ext.rs` (lines 26-39):
rebuilds the rectangle from the componentwise min/max of `top_left` and
`bottom_right().unwrap()`.  The unwrap panics on a zero-sized rectangle; the
panic is embedded as `none`. -/
def into_well_formed (r : Rectangle) : Option Rectangle :=
  r.bottom_right.map fun br =>
    Rectangle.with_corners
      ⟨min r.top_left.x br.x, min r.top_left.y br.y⟩
      ⟨max r.top_left.x br.x, max r.top_left.y br.y⟩

/-- Structure `TextBox` from `src/lib.rs` (lines 134-140). -/
structure TextBox where
  text : List Char
  bounds : Rectangle
  deriving DecidableEq, Repr

/-- Constructor `TextBox::new` from `src/lib.rs` (lines 142-151): stores the text and
`bounds.into_well_formed()` (`none` embeds the panic on zero-sized bounds). -/
def TextBox.new (text : List Char) (bounds : Rectangle) : Option TextBox :=
  (into_well_formed bounds).map fun b => ⟨text, b⟩

/-- Method `Transform::translate` for `TextBox` (`src/lib.rs` lines 210-226):
translates the bounds, keeps the text. -/
def TextBox.translate (t : TextBox) (d : Point) : TextBox :=
  { t with bounds := t.bounds.translate d }

/-- Structure `StyledTextBox` (`src/lib.rs` lines 244-259), restricted to the data the
height-fitting and drawing claims touch; the style (font, colors, alignment)
only enters through the measured text height, which is passed explicitly
where needed. -/
structure StyledTextBox where
  text_box : TextBox
  deriving DecidableEq, Repr

/-- The well-formedness property claimed for stored bounds: the top-left
corner is weakly above and to the left of the bottom-right corner. -/
def Rectangle.well_formed (r : Rectangle) : Prop :=
  ∀ br, r.bottom_right = some br → r.top_left.x ≤ br.x ∧ r.top_left.y ≤ br.y

theorem well_formed_always (r : Rectangle) : r.well_formed := by
  intro br h
  simp only [Rectangle.bottom_right] at h
  split at h
  · rename_i hpos
    obtain ⟨hw, hh⟩ := hpos
    simp only [Option.some.injEq] at h
    subst h
    constructor <;> simp <;> omega
  · exact absurd h (by simp)

theorem into_well_formed_of_pos (r : Rectangle)
    (hw : 0 < r.size.width) (hh : 0 < r.size.height) :
    into_well_formed r = some r := by
  obtain ⟨⟨tx, ty⟩, ⟨w, h⟩⟩ := r
  simp only [into_well_formed, Rectangle.bottom_right] at *
  rw [if_pos ⟨hw, hh⟩]
  simp only [Option.map_some']
  congr 1
  simp only [Rectangle.with_corners, Rectangle.mk.injEq, Point.mk.injEq, Size.mk.injEq]
  refine ⟨⟨?_, ?_⟩, ?_, ?_⟩ <;> omega

/-! ## Height fitting (`src/lib.rs` lines 269-295) -/

/-- Value `u32::max_value()`. -/
def U32_MAX : Nat := 4294967295

/-- Value `i32::max_value()` as `u32`. -/
def I32_MAX : Nat := 2147483647

/-- The height computed by `StyledTextBox::fit_height_limited`
(`src/lib.rs` lines 280-295).  `measured` is the `u32` result of
`style.measure_text_height(text, width)` (the measuring code is not part of
this snapshot, so the claims are settled for an arbitrary measured value).
The code clamps it by `max_height` and `i32::MAX`, casts to `i32`, and then
performs the wrapping cast `(text_height - 1) as u32` — embedded as
`(text_height - 1) mod 2^32` on integers. -/
def fit_height_value (measured max_height : Nat) : Nat :=
  let text_height : Int := (min (min measured max_height) I32_MAX : Nat)
  ((text_height - 1) % 4294967296).toNat

/-- Method `StyledTextBox::fit_height_limited` (`src/lib.rs` lines 280-295): writes
the computed height into `self.text_box.bounds.size.height`. -/
def fit_height_limited (measured max_height : Nat) (s : StyledTextBox) : StyledTextBox :=
  { s with text_box :=
    { s.text_box with bounds :=
      { s.text_box.bounds with size :=
        { s.text_box.bounds.size with height := fit_height_value measured max_height } } } }

/-- Method `StyledTextBox::fit_height` (`src/lib.rs` lines 271-273):
`fit_height_limited(u32::max_value())`. -/
def fit_height (measured : Nat) (s : StyledTextBox) : StyledTextBox :=
  fit_height_limited measured U32_MAX s

/-- C4, code bug.  The method's own documentation (`src/lib.rs` lines
275-278) promises the box "will take up at most `max_height` pixel vertical
space", and the claim says the height computation clamps rather than wraps.
With `max_height = 0` the clamped `text_height` is `0` and the wrapping cast
`(0 - 1) as u32` stores `u32::MAX = 4294967295` as the box height — a silent
wrap exceeding `max_height`, for every measured text height and every box. -/
theorem c4_fit_height_limited_wraps (measured : Nat) (s : StyledTextBox) :
    (fit_height_limited measured 0 s).text_box.bounds.size.height = U32_MAX ∧
    ¬ ((fit_height_limited measured 0 s).text_box.bounds.size.height ≤ 0) := by
  have h0 : fit_height_value measured 0 = U32_MAX := by
    have hmin : min (min measured 0) I32_MAX = 0 := by simp
    simp only [fit_height_value, hmin]
    decide
  constructor
  · exact h0
  · show ¬ (fit_height_value measured 0 ≤ 0)
    rw [h0]
    decide

/-- C5, code bug.  Operation `fit_height` (FitToText) is documented to
set "the height of the `StyledTextBox` to the height of the text", and the
claim says the resulting height exactly equals the measured text height.  The
ported code sets `bounds.size.height = text_height - 1` (the commented-out
original computed an inclusive corner, where the `- 1` was correct), so for
a measured height of 16 pixels (two 8-pixel rows, the situation of the doc
example at `src/lib.rs` lines 168-183, which asserts 16) the stored height
is 15. -/
theorem c5_fit_height_off_by_one (s : StyledTextBox) :
    (fit_height 16 s).text_box.bounds.size.height = 15 ∧ (15 : Nat) ≠ 16 := by
  constructor
  · show fit_height_value 16 U32_MAX = 15
    decide
  · decide

/-- C7, counterexample.  The claim quantifies over every rectangle, but
`TextBox::new` on a zero-sized rectangle panics inside
`into_well_formed` (`bottom_right().unwrap()` on `None`) instead of storing
normalized bounds — embedded as `none`. -/
theorem c7_bounds_counterexample :
    TextBox.new ['a'] ⟨⟨0, 0⟩, ⟨0, 0⟩⟩ = none := by decide

/-- C7, amended.  For every text and every rectangle with nonzero width and
height, `TextBox::new` succeeds and stores bounds satisfying
`top_left ≤ bottom_right` (in the top-left + unsigned-size representation the
stored rectangle is already normal, and `into_well_formed` returns it
unchanged), and this well-formedness is preserved by `translate` and by the
height-fitting mutator. -/
theorem c7_bounds_amended (text : List Char) (r : Rectangle)
    (hw : 0 < r.size.width) (hh : 0 < r.size.height) :
    ∃ tb, TextBox.new text r = some tb ∧
      tb.bounds = r ∧
      tb.bounds.well_formed ∧
      (∀ d, (tb.translate d).bounds.well_formed) ∧
      (∀ measured max_height,
        (fit_height_limited measured max_height ⟨tb⟩).text_box.bounds.well_formed) := by
  refine ⟨⟨text, r⟩, ?_, rfl, well_formed_always r, ?_, ?_⟩
  · unfold TextBox.new
    rw [into_well_formed_of_pos r hw hh]
    rfl
  · intro d
    exact well_formed_always _
  · intro measured max_height
    exact well_formed_always _

/-- Witness for `c7_bounds_amended` at a concrete text and rectangle. -/
theorem c7_bounds_amended_witness :
    ∃ tb, TextBox.new ['a'] ⟨⟨0, 0⟩, ⟨2, 3⟩⟩ = some tb ∧
      tb.bounds = ⟨⟨0, 0⟩, ⟨2, 3⟩⟩ ∧
      tb.bounds.well_formed ∧
      (∀ d, (tb.translate d).bounds.well_formed) ∧
      (∀ measured max_height,
        (fit_height_limited measured max_height ⟨tb⟩).text_box.bounds.well_formed) :=
  c7_bounds_amended ['a'] ⟨⟨0, 0⟩, ⟨2, 3⟩⟩ (by decide) (by decide)

/-! ## Drawing (`src/lib.rs` lines 298-313) -/

/-- A pixel of the output stream: a position and a color. -/
structure Pixel (C : Type) where
  pos : Point
  color : C

/-- Operation `<StyledTextBox as Drawable>::draw` (`src/lib.rs` lines 309-312):
`display.draw_iter(Self::create_renderer(self))` — one call to the external
target's `draw_iter` on the renderer's pixel stream, whose result is
returned unchanged.  The draw target is modeled as a stateful sink
`σ → List (Pixel C) → σ × Except E Unit`; the pixel stream produced by the
(alignment-specific, out-of-snapshot) `RendererFactory` is a parameter. -/
def StyledTextBox.draw {C E σ : Type} (pixels : List (Pixel C))
    (draw_iter : σ → List (Pixel C) → σ × Except E Unit) (display : σ) :
    σ × Except E Unit :=
  draw_iter display pixels

/-- C9, confirmed: the draw operation returns exactly the result of the
single `draw_iter` call on the target — a failure is propagated unchanged
(no retry, no buffering), and acceptance is returned as `Ok`. -/
theorem c9_draw_propagates (C E σ : Type) (pixels : List (Pixel C))
    (draw_iter : σ → List (Pixel C) → σ × Except E Unit) (display : σ) :
    StyledTextBox.draw pixels draw_iter display = draw_iter display pixels :=
  rfl

/-! ## The carriage-return rendering scenario (claim C6)

The row renderer (`src/rendering/line.rs`, cursor, character iterators) is
not part of this repository snapshot; the authoritative in-repo artifact for
the carriage-return behavior is the renderer's expected-output test
`simple_render_cr` (`src/alignment/left.rs` lines 86-114), which draws
`"O\rX"` left-aligned with `Font6x8` and asserts an exact `MockDisplay`
pattern.  The two glyph bitmaps below are the `Font6x8` data of the external
glyph provider for `'O'` and `'X'` (5 columns in a 6x8 cell); their union
reproduces the asserted pattern exactly, which pins down the behavior:
`X` is drawn at the row's start column over the already-drawn `O`. -/

/-- The expected pattern asserted by `simple_render_cr`
(`src/alignment/left.rs` lines 104-112); `'#'` is a drawn (On) pixel. -/
def cr_test_pattern : List (List Char) :=
  ["#####    ".toList,
   "#   #    ".toList,
   "## ##    ".toList,
   "# # #    ".toList,
   "## ##    ".toList,
   "#   #    ".toList,
   "#####    ".toList]

/-- Bitmap of `'O'` in `Font6x8` (external glyph provider). -/
def glyph_O : List (List Char) :=
  [".###.".toList,
   "#...#".toList,
   "#...#".toList,
   "#...#".toList,
   "#...#".toList,
   "#...#".toList,
   ".###.".toList]

/-- Bitmap of `'X'` in `Font6x8` (external glyph provider). -/
def glyph_X : List (List Char) :=
  ["#...#".toList,
   "#...#".toList,
   ".#.#.".toList,
   "..#..".toList,
   ".#.#.".toList,
   "#...#".toList,
   "#...#".toList]

/-- Whether the pixel at column `x`, row `y` of a pattern is drawn. -/
def pattern_lit (p : List (List Char)) (x y : Nat) : Bool :=
  ((p.getD y []).getD x ' ') == '#'

/-- C6, counterexample.  The claim says only `X`'s glyph is visible at the
row's start column and the pixels contributed by `O` do not appear.  The
repository's own expected output for `"O\rX"` asserts a lit pixel at
column 1 of row 0, which `X`'s glyph does not light but `O`'s does: `O`'s
pixels appear in the output. -/
theorem c6_cr_counterexample :
    pattern_lit cr_test_pattern 1 0 = true ∧
    pattern_lit glyph_X 1 0 = false ∧
    pattern_lit glyph_O 1 0 = true := by decide

/-- C6, amended.  Rendering `"O\rX"` left-aligned, the carriage return
returns the cursor to the row's start column without discarding the already
rendered `O`: `X` is drawn over `O`, and the visible output asserted by the
repository's test is exactly the pointwise union of the `'O'` and `'X'`
glyphs at the start column (and the tokenizer splits the text as
`Word "O"`, `CarriageReturn`, `Word "X"`). -/
theorem c6_cr_amended :
    ((List.range 9).all fun x => (List.range 7).all fun y =>
      pattern_lit cr_test_pattern x y ==
        (pattern_lit glyph_O x y || pattern_lit glyph_X x y)) = true ∧
    tokenize ['O', '\r', 'X'] =
      [Token.word ['O'], Token.carriageReturn, Token.word ['X']] := by decide

end EmbeddedText
